import Mathlib

/-!
Verification of the paper-to-audio pipeline (`src/chunked_tts.py` and
`src/text_extraction.py`).

Strings are modelled as `List Char`; byte sequences as `List Nat`.
`str_splitlines` embeds Python's `str.splitlines` (universal newlines,
with `"\r\n"` counted as a single line break), `joinNL` embeds
`"\n".join`, and `chunk_text_by_lines` embeds the chunker of
`src/chunked_tts.py` lines 67-82.
-/

namespace PaperToAudio

/-- The line-boundary characters recognised by Python's `str.splitlines`:
LF, CR, VT, FF, FS, GS, RS, NEL, LINE SEPARATOR, PARAGRAPH SEPARATOR. -/
def isLineBreak (c : Char) : Bool :=
  c == '\n' || c == '\r' || c == '\u000B' || c == '\u000C' ||
  c == '\u001C' || c == '\u001D' || c == '\u001E' ||
  c == '\u0085' || c == '\u2028' || c == '\u2029'

/-- Worker for `str_splitlines`: `acc` holds the characters of the current
line in reverse.  A `"\r\n"` pair counts as a single line break; a line
break at the end of the text does not open a trailing empty line. -/
def splitlinesAux (acc : List Char) : List Char → List (List Char)
  | [] => if acc = [] then [] else [acc.reverse]
  | c :: rest =>
    if isLineBreak c then
      match rest with
      | [] => [acc.reverse]
      | d :: rest2 =>
        if c = '\r' ∧ d = '\n' then acc.reverse :: splitlinesAux [] rest2
        else acc.reverse :: splitlinesAux [] (d :: rest2)
    else
      splitlinesAux (c :: acc) rest

/-- Python's `text.splitlines()` on a `List Char` text. -/
def str_splitlines (t : List Char) : List (List Char) :=
  splitlinesAux [] t

/-- Python's `"\n".join(lines)`. -/
def joinNL : List (List Char) → List Char
  | [] => []
  | [l] => l
  | l :: l2 :: ls => l ++ '\n' :: joinNL (l2 :: ls)

/-- `CHUNK_CHAR_LIMIT` from `src/chunked_tts.py`. -/
def CHUNK_CHAR_LIMIT : Nat := 8000

/-- The loop of `chunk_text_by_lines`: `current` is the group of lines of
the chunk under construction and `len` the running length counter
(`length` in the Python source). -/
def chunkLoop (char_limit : Nat) : List (List Char) → List (List Char) → Nat → List (List Char)
  | [], current, _ => if current = [] then [] else [joinNL current]
  | line :: rest, current, len =>
    let extra := line.length + 1
    if current ≠ [] ∧ len + extra > char_limit then
      joinNL current :: chunkLoop char_limit rest [line] extra
    else
      chunkLoop char_limit rest (current ++ [line]) (len + extra)

/-- `chunk_text_by_lines` from `src/chunked_tts.py` lines 67-82. -/
def chunk_text_by_lines (text : List Char) (char_limit : Nat := CHUNK_CHAR_LIMIT) : List (List Char) :=
  chunkLoop char_limit (str_splitlines text) [] 0

/-- Removal of a single terminating `'\n'`, used to phrase the round-trip
property of the chunker. -/
def stripTrailingNewline : List Char → List Char
  | [] => []
  | [c] => if c = '\n' then [] else [c]
  | c :: d :: rest => c :: stripTrailingNewline (d :: rest)

/-- Spec-side definition for the newline-normalisation claim: replace every
universal line boundary of the input (a `"\r\n"` pair counting as a single
boundary) by one `'\n'` character. -/
def normalizeNewlines : List Char → List Char
  | [] => []
  | c :: rest =>
    if isLineBreak c then
      match rest with
      | [] => ['\n']
      | d :: rest2 =>
        if c = '\r' ∧ d = '\n' then '\n' :: normalizeNewlines rest2
        else '\n' :: normalizeNewlines (d :: rest2)
    else c :: normalizeNewlines rest

/-! ### Backend adapters (`tts_chunk`, `src/chunked_tts.py` lines 85-122) -/

/-- One part of a Gemini response candidate.  `inline_data` is `none` when
the part carries no inline payload (missing attribute or `None`); the byte
list models `p.inline_data.data`. -/
structure Part where
  inline_data : Option (List Nat)
deriving DecidableEq

/-- The audio payload a part contributes (empty when absent). -/
def inline_audio (p : Part) : List Nat :=
  match p.inline_data with
  | some d => d
  | none => []

/-- The filter of the generator expression in `tts_chunk`:
`getattr(p, "inline_data", None) and p.inline_data.data` (truthiness:
present and nonempty). -/
def part_has_audio (p : Part) : Bool :=
  match p.inline_data with
  | some d => !d.isEmpty
  | none => false

/-- The Gemini branch of `tts_chunk`:
`b"".join(p.inline_data.data for p in parts if ...)`. -/
def tts_chunk_gemini (parts : List Part) : List Nat :=
  ((parts.filter part_has_audio).map inline_audio).flatten

/-- A parsed WAV container as the `wave` module exposes it; `frames` is the
frame payload returned by `wf.readframes(wf.getnframes())`. -/
structure WavFile where
  nchannels : Nat
  sampwidth : Nat
  framerate : Nat
  frames : List Nat
deriving DecidableEq

/-- The client argument of `tts_chunk`.  A client value also carries the
response its backend would return, so the network is modelled as part of
the client.  `other` models any object that is neither a `genai.Client`
nor an `openai.OpenAI` instance. -/
inductive Client where
  | gemini (parts : List Part)
  | openai (wav : WavFile)
  | other
deriving DecidableEq

/-- `tts_chunk` from `src/chunked_tts.py`: an `isinstance` chain with no
final `else`, so a client matching neither branch produces Python's
implicit `None`, modelled as `none`. -/
def tts_chunk (client : Client) (chunk : List Char) : Option (List Nat) :=
  match client with
  | Client.gemini parts => some (tts_chunk_gemini parts)
  | Client.openai wav => some wav.frames
  | Client.other => none

/-! ### Audio assembly and the `main` driver (`src/chunked_tts.py` lines 124-150) -/

/-- The accumulation loop of `main`:
`pcm_all = b""` followed by `pcm_all += tts_chunk(client, chunk)` per chunk,
with `synth` giving the bytes the backend returns for a chunk. -/
def main_pcm_accumulate (synth : List Char → List Nat) (chunks : List (List Char)) : List Nat :=
  chunks.foldl (fun acc chunk => acc ++ synth chunk) []

/-- Result of `save_audio_file`: either a file written with the given
extension and payload, or the `RuntimeError` raised when MP3 output is
requested and pydub is unavailable. -/
inductive SaveResult where
  | wrote (ext : String) (pcm : List Nat)
  | configError (msg : String)
deriving DecidableEq

/-- `save_audio_file` from `src/chunked_tts.py` lines 43-64;
`audio_segment_available` models `AudioSegment is not None`. -/
def save_audio_file (audio_segment_available : Bool) (pcm : List Nat) (fmt : String) : SaveResult :=
  if fmt = "mp3" then
    if audio_segment_available then SaveResult.wrote ".mp3" pcm
    else SaveResult.configError "pydub is required for MP3 output"
  else SaveResult.wrote ".wav" pcm

/-- Externally observable events of one `main` run. -/
inductive Event where
  | ttsCall (chunk : List Char)
  | save (result : SaveResult)
deriving DecidableEq

/-- The event trace of `main` after argument/credential checks: one TTS
network call per chunk, in order, then a single `save_audio_file` call on
the accumulated PCM. -/
def main_trace (audio_segment_available : Bool) (fmt : String)
    (synth : List Char → List Nat) (text : List Char) (char_limit : Nat) : List Event :=
  (chunk_text_by_lines text char_limit).map Event.ttsCall ++
    [Event.save (save_audio_file audio_segment_available
      (main_pcm_accumulate synth (chunk_text_by_lines text char_limit)) fmt)]

/-! ### Extraction cache (`src/text_extraction.py`) -/

/-- A filesystem path, with the suffix kept separate so that
`Path.with_suffix` is expressible. -/
structure PyPath where
  stem : String
  ext : String
deriving DecidableEq

/-- `Path.with_suffix`. -/
def with_suffix (p : PyPath) (s : String) : PyPath := ⟨p.stem, s⟩

/-- `_default_txt_path` from `src/text_extraction.py`. -/
def default_txt_path (output_audio : PyPath) : PyPath := with_suffix output_audio ".txt"

/-- The filesystem, as an association list from paths to text contents. -/
abbrev FS := List (PyPath × List Char)

/-- Reading a file (`Path.read_text`); `none` when the path does not exist. -/
def fs_read : FS → PyPath → Option (List Char)
  | [], _ => none
  | (p, t) :: rest, q => if p = q then some t else fs_read rest q

/-- Writing a file (`Path.write_text`). -/
def fs_write (fs : FS) (p : PyPath) (t : List Char) : FS := (p, t) :: fs

/-- Outcome of one `extract_text_from_pdf` call: the returned text, the
filesystem afterwards, and whether a network call was issued. -/
structure ExtractOutcome where
  text : List Char
  fs : FS
  network_call : Bool
deriving DecidableEq

/-- `extract_text_from_pdf` from `src/text_extraction.py`: derive the txt
path when none is given, return the cached file verbatim when it exists,
otherwise issue one LLM call (`extract_llm` models the chat-completion
response text for the PDF bytes), persist and return its text. -/
def extract_text_from_pdf (fs : FS) (extract_llm : List Nat → List Char)
    (pdf_bytes : List Nat) (output_audio_file : PyPath)
    (txt_path : Option PyPath) : ExtractOutcome :=
  let tp := txt_path.getD (default_txt_path output_audio_file)
  match fs_read fs tp with
  | some cached => ⟨cached, fs, false⟩
  | none =>
    let extracted := extract_llm pdf_bytes
    ⟨extracted, fs_write fs tp extracted, true⟩

/-! ### Step equations for `splitlinesAux` -/

theorem splitlinesAux_nil (acc : List Char) :
    splitlinesAux acc [] = if acc = [] then [] else [acc.reverse] := rfl

theorem splitlinesAux_not_break (acc : List Char) (c : Char) (rest : List Char)
    (h : isLineBreak c = false) :
    splitlinesAux acc (c :: rest) = splitlinesAux (c :: acc) rest := by
  cases rest <;> simp [splitlinesAux, h]

theorem splitlinesAux_break (acc : List Char) (c : Char) (rest : List Char)
    (h : isLineBreak c = true) (h2 : ¬(c = '\r' ∧ rest.head? = some '\n')) :
    splitlinesAux acc (c :: rest) = acc.reverse :: splitlinesAux [] rest := by
  cases rest with
  | nil => simp [splitlinesAux, h]
  | cons d rest2 =>
    have h3 : ¬(c = '\r' ∧ d = '\n') := by simpa using h2
    simp [splitlinesAux, h, h3]

theorem splitlinesAux_crlf (acc : List Char) (rest : List Char) :
    splitlinesAux acc ('\r' :: '\n' :: rest) = acc.reverse :: splitlinesAux [] rest := rfl

/-- A nonempty text (or pending line) always yields at least one line. -/
theorem splitlinesAux_ne_nil (acc t : List Char) (h : acc ≠ [] ∨ t ≠ []) :
    splitlinesAux acc t ≠ [] := by
  induction t generalizing acc with
  | nil =>
    have hacc : acc ≠ [] := by tauto
    simp [splitlinesAux_nil, hacc]
  | cons c rest ih =>
    by_cases hb : isLineBreak c
    · by_cases hcr : c = '\r' ∧ rest.head? = some '\n'
      · obtain ⟨hc, hd⟩ := hcr
        cases rest with
        | nil => simp at hd
        | cons d rest2 =>
          simp at hd
          subst hc hd
          rw [splitlinesAux_crlf]
          simp
      · rw [splitlinesAux_break acc c rest hb hcr]
        simp
    · rw [splitlinesAux_not_break acc c rest (by simpa using hb)]
      exact ih (c :: acc) (Or.inl (by simp))

/-- Every character of every produced line is not a line-break character
(provided the pending line `acc` is break-free). -/
theorem splitlinesAux_no_break (acc t : List Char)
    (hacc : ∀ ch ∈ acc, isLineBreak ch = false) :
    ∀ l ∈ splitlinesAux acc t, ∀ ch ∈ l, isLineBreak ch = false := by
  induction acc, t using splitlinesAux.induct with
  | case1 =>
    simp [splitlinesAux_nil]
  | case2 acc hne =>
    simp [splitlinesAux_nil, hne]
    simpa using hacc
  | case3 acc c hb =>
    intro l hl
    rw [splitlinesAux_break acc c [] hb (by simp)] at hl
    simp [splitlinesAux_nil] at hl
    subst hl
    simpa using hacc
  | case4 acc c hb d rest2 hcr ih =>
    obtain ⟨hc, hd⟩ := hcr
    subst hc hd
    intro l hl
    rw [splitlinesAux_crlf] at hl
    rcases List.mem_cons.mp hl with h | h
    · subst h; simpa using hacc
    · exact ih (by simp) l h
  | case5 acc c hb d rest2 hcr ih =>
    intro l hl
    rw [splitlinesAux_break acc c (d :: rest2) hb (by simpa using hcr)] at hl
    rcases List.mem_cons.mp hl with h | h
    · subst h; simpa using hacc
    · exact ih (by simp) l h
  | case6 acc c rest hb ih =>
    rw [splitlinesAux_not_break acc c rest (by simpa using hb)]
    apply ih
    intro ch hch
    rcases List.mem_cons.mp hch with h | h
    · subst h; simpa using hb
    · exact hacc ch h

/-! ### `joinNL` facts -/

@[simp] theorem joinNL_nil : joinNL [] = [] := rfl

@[simp] theorem joinNL_singleton (l : List Char) : joinNL [l] = l := rfl

theorem joinNL_cons (l : List Char) (ls : List (List Char)) (h : ls ≠ []) :
    joinNL (l :: ls) = l ++ '\n' :: joinNL ls := by
  cases ls with
  | nil => exact absurd rfl h
  | cons m ms => rfl

theorem joinNL_append (a b : List (List Char)) (ha : a ≠ []) (hb : b ≠ []) :
    joinNL (a ++ b) = joinNL a ++ '\n' :: joinNL b := by
  induction a with
  | nil => exact absurd rfl ha
  | cons x xs ih =>
    cases xs with
    | nil => simpa using joinNL_cons x b hb
    | cons y ys =>
      rw [List.cons_append, joinNL_cons x ((y :: ys) ++ b) (by simp),
        ih (by simp), joinNL_cons x (y :: ys) (by simp)]
      simp

/-- Length accounting for joined groups: the `length` counter of the Python
loop is the joined chunk's length plus one. -/
def sumExtra (g : List (List Char)) : Nat := (g.map (fun l => l.length + 1)).sum

theorem joinNL_length (g : List (List Char)) (h : g ≠ []) :
    (joinNL g).length + 1 = sumExtra g := by
  induction g with
  | nil => exact absurd rfl h
  | cons l ls ih =>
    cases ls with
    | nil => simp [joinNL, sumExtra]
    | cons m ms =>
      rw [joinNL_cons l (m :: ms) (by simp)]
      have := ih (by simp)
      simp [sumExtra] at this ⊢
      omega

/-! ### `chunkLoop`: the emitted chunks are the joins of a partition of the
input lines into nonempty contiguous groups -/

theorem chunkLoop_partition (char_limit : Nat) (lines : List (List Char)) :
    ∀ (current : List (List Char)) (len : Nat),
    ∃ gs : List (List (List Char)),
      (∀ g ∈ gs, g ≠ []) ∧ gs.flatten = current ++ lines ∧
      chunkLoop char_limit lines current len = gs.map joinNL := by
  induction lines with
  | nil =>
    intro current len
    by_cases h : current = []
    · subst h
      exact ⟨[], by simp, by simp, by simp [chunkLoop]⟩
    · exact ⟨[current], by simp [h], by simp, by simp [chunkLoop, h]⟩
  | cons line rest ih =>
    intro current len
    by_cases h : current ≠ [] ∧ len + (line.length + 1) > char_limit
    · obtain ⟨gs, hne, hflat, heq⟩ := ih [line] (line.length + 1)
      refine ⟨current :: gs, ?_, ?_, ?_⟩
      · intro g hg
        rcases List.mem_cons.mp hg with rfl | hg
        · exact h.1
        · exact hne g hg
      · simp [hflat]
      · simp only [chunkLoop]
        rw [if_pos h, heq]
        simp
    · obtain ⟨gs, hne, hflat, heq⟩ := ih (current ++ [line]) (len + (line.length + 1))
      refine ⟨gs, hne, ?_, ?_⟩
      · simp [hflat]
      · simp only [chunkLoop]
        rw [if_neg h, heq]

theorem joinNL_map_flatten (gs : List (List (List Char))) (h : ∀ g ∈ gs, g ≠ []) :
    joinNL (gs.map joinNL) = joinNL gs.flatten := by
  induction gs with
  | nil => rfl
  | cons g gs ih =>
    cases gs with
    | nil => simp [joinNL]
    | cons g2 gs2 =>
      have hg : g ≠ [] := h g (by simp)
      have hrest : ∀ x ∈ g2 :: gs2, x ≠ [] := fun x hx => h x (by simp [hx])
      have hflat_ne : (g2 :: gs2).flatten ≠ [] := by
        have hg2 : g2 ≠ [] := hrest g2 (by simp)
        simp only [List.flatten_cons, ne_eq, List.append_eq_nil]
        tauto
      rw [List.map_cons, joinNL_cons _ _ (by simp), ih hrest,
        show (g :: g2 :: gs2).flatten = g ++ (g2 :: gs2).flatten from rfl,
        joinNL_append g _ hg hflat_ne]

/-- Rejoining the chunks with `'\n'` always reproduces the rejoined lines of
the input, whatever the limit. -/
theorem joinNL_chunk_eq_joinNL_splitlines (text : List Char) (char_limit : Nat) :
    joinNL (chunk_text_by_lines text char_limit) = joinNL (str_splitlines text) := by
  obtain ⟨gs, hne, hflat, heq⟩ := chunkLoop_partition char_limit (str_splitlines text) [] 0
  simp only [chunk_text_by_lines]
  rw [heq, joinNL_map_flatten gs hne, hflat]
  simp

/-! ### Size bound for emitted chunks -/

theorem emitted_chunk_bound (char_limit : Nat) (lines0 : List (List Char))
    (current : List (List Char)) (h : current ≠ [])
    (hinv : current.length ≤ 1 ∨ sumExtra current ≤ char_limit)
    (hcur : ∀ l ∈ current, l ∈ lines0) :
    (joinNL current).length ≤ char_limit ∨
      (joinNL current ∈ lines0 ∧ char_limit < (joinNL current).length) := by
  rcases hinv with hone | hle
  · cases current with
    | nil => exact absurd rfl h
    | cons l ls =>
      cases ls with
      | nil =>
        rcases le_or_lt (joinNL [l]).length char_limit with h1 | h1
        · exact Or.inl h1
        · refine Or.inr ⟨?_, h1⟩
          simpa [joinNL] using hcur l (by simp)
      | cons m ms => simp at hone
  · left
    have hlen := joinNL_length current h
    omega

theorem chunkLoop_bound (char_limit : Nat) (lines0 : List (List Char))
    (lines : List (List Char)) :
    ∀ (current : List (List Char)) (len : Nat),
    len = sumExtra current →
    (current.length ≤ 1 ∨ len ≤ char_limit) →
    (∀ l ∈ current, l ∈ lines0) →
    (∀ l ∈ lines, l ∈ lines0) →
    ∀ c ∈ chunkLoop char_limit lines current len,
      c.length ≤ char_limit ∨ (c ∈ lines0 ∧ char_limit < c.length) := by
  induction lines with
  | nil =>
    intro current len hlen hinv hcur _ c hc
    by_cases h : current = []
    · subst h; simp [chunkLoop] at hc
    · simp only [chunkLoop, if_neg h] at hc
      rcases List.mem_singleton.mp hc with rfl
      exact emitted_chunk_bound char_limit lines0 current h (by rw [← hlen]; exact hinv) hcur
  | cons line rest ih =>
    intro current len hlen hinv hcur hlines c hc
    by_cases h : current ≠ [] ∧ len + (line.length + 1) > char_limit
    · simp only [chunkLoop] at hc
      rw [if_pos h] at hc
      rcases List.mem_cons.mp hc with rfl | hc
      · exact emitted_chunk_bound char_limit lines0 current h.1 (by rw [← hlen]; exact hinv) hcur
      · refine ih [line] (line.length + 1) (by simp [sumExtra]) (Or.inl (by simp)) ?_
          (fun x hx => hlines x (by simp [hx])) c hc
        intro x hx
        rcases List.mem_singleton.mp hx with rfl
        exact hlines x (by simp)
    · simp only [chunkLoop] at hc
      rw [if_neg h] at hc
      refine ih (current ++ [line]) (len + (line.length + 1)) ?_ ?_ ?_
        (fun x hx => hlines x (by simp [hx])) c hc
      · simp [sumExtra, hlen]
      · by_cases hcur_nil : current = []
        · subst hcur_nil
          exact Or.inl (by simp)
        · right
          rcases not_and_or.mp h with h1 | h1
          · exact absurd hcur_nil (by simpa using h1)
          · omega
      · intro x hx
        rcases List.mem_append.mp hx with h1 | h1
        · exact hcur x h1
        · rcases List.mem_singleton.mp h1 with rfl
          exact hlines x (by simp)

/-! ### Splitting joined break-free lines -/

theorem splitlinesAux_append_line (l : List Char) (t : List Char)
    (hl : ∀ ch ∈ l, isLineBreak ch = false) :
    ∀ acc : List Char,
      splitlinesAux acc (l ++ '\n' :: t) = (acc.reverse ++ l) :: splitlinesAux [] t := by
  induction l with
  | nil =>
    intro acc
    rw [List.nil_append, splitlinesAux_break acc '\n' t (by decide) (by simp)]
    simp
  | cons c l' ih =>
    intro acc
    have hc : isLineBreak c = false := hl c (by simp)
    rw [List.cons_append, splitlinesAux_not_break acc c _ hc,
      ih (fun ch hch => hl ch (by simp [hch])) (c :: acc)]
    simp

theorem splitlinesAux_line (l : List Char) (hl : ∀ ch ∈ l, isLineBreak ch = false) :
    ∀ acc : List Char,
      splitlinesAux acc l = if l = [] ∧ acc = [] then [] else [acc.reverse ++ l] := by
  induction l with
  | nil =>
    intro acc
    by_cases h : acc = [] <;> simp [splitlinesAux_nil, h]
  | cons c l' ih =>
    intro acc
    have hc : isLineBreak c = false := hl c (by simp)
    rw [splitlinesAux_not_break acc c l' hc, ih (fun ch hch => hl ch (by simp [hch])) (c :: acc)]
    simp

/-- Splitting a joined nonempty group of break-free lines gives back an
initial segment of the group (all of it unless the group's last line is
empty, in which case exactly that empty last line is lost). -/
theorem str_splitlines_joinNL (g : List (List Char)) (hg : g ≠ [])
    (hlines : ∀ l ∈ g, ∀ ch ∈ l, isLineBreak ch = false) :
    ∃ post, str_splitlines (joinNL g) ++ post = g := by
  induction g with
  | nil => exact absurd rfl hg
  | cons l ls ih =>
    cases ls with
    | nil =>
      by_cases h : l = []
      · subst h
        exact ⟨[[]], by simp [str_splitlines, joinNL, splitlinesAux_nil]⟩
      · refine ⟨[], ?_⟩
        simp only [joinNL, str_splitlines]
        rw [splitlinesAux_line l (hlines l (by simp)) []]
        simp [h]
    | cons m ms =>
      obtain ⟨post, hpost⟩ := ih (by simp) (fun x hx => hlines x (by simp [hx]))
      refine ⟨post, ?_⟩
      rw [joinNL_cons l (m :: ms) (by simp)]
      simp only [str_splitlines] at hpost ⊢
      rw [splitlinesAux_append_line l _ (hlines l (by simp)) []]
      simpa using hpost

/-- Every member of a list of lists is a contiguous segment of its
flattening. -/
theorem mem_flatten_infix {α : Type} (gs : List (List α)) (g : List α) (h : g ∈ gs) :
    ∃ pre post, pre ++ g ++ post = gs.flatten := by
  induction gs with
  | nil => simp at h
  | cons x xs ih =>
    rcases List.mem_cons.mp h with rfl | h
    · exact ⟨[], xs.flatten, by simp⟩
    · obtain ⟨pre, post, hp⟩ := ih h
      exact ⟨x ++ pre, post, by simp [← hp]⟩

/-! ### Round trip over LF-only texts -/

theorem joinNL_splitlinesAux_only_lf (t : List Char) :
    ∀ acc : List Char, (∀ c ∈ t, isLineBreak c = true → c = '\n') →
    joinNL (splitlinesAux acc t) =
      if t = [] ∧ acc = [] then [] else acc.reverse ++ stripTrailingNewline t := by
  induction t with
  | nil =>
    intro acc _
    by_cases h : acc = [] <;> simp [splitlinesAux_nil, h, stripTrailingNewline]
  | cons c rest ih =>
    intro acc honly
    by_cases hb : isLineBreak c = true
    · have hc : c = '\n' := honly c (by simp) hb
      subst hc
      rw [splitlinesAux_break acc '\n' rest (by decide) (by simp)]
      cases rest with
      | nil =>
        simp [splitlinesAux_nil, joinNL, stripTrailingNewline]
      | cons d rest2 =>
        have hrest_ne : splitlinesAux [] (d :: rest2) ≠ [] :=
          splitlinesAux_ne_nil [] (d :: rest2) (Or.inr (by simp))
        rw [joinNL_cons _ _ hrest_ne, ih [] (fun x hx => honly x (by simp [hx]))]
        simp [stripTrailingNewline]
    · rw [splitlinesAux_not_break acc c rest (by simpa using hb)]
      rw [ih (c :: acc) (fun x hx => honly x (by simp [hx]))]
      have hcn : c ≠ '\n' := by
        intro h
        subst h
        exact hb (by decide)
      cases rest with
      | nil => simp [stripTrailingNewline, hcn]
      | cons d rest2 => simp [stripTrailingNewline]

/-! ### Claim theorems -/

/-- C1 (as stated, counterexample): for the input `"a\rb"` the chunks
rejoined with `'\n'` give `"a\nb"`, which differs from the input even
after removal of a terminating line break (the input has none), because
`str.splitlines` splits at the `'\r'` and the rejoin replaces it by
`'\n'`. -/
theorem chunk_join_roundtrip_counterexample :
    joinNL (chunk_text_by_lines "a\rb".data 8000) ≠ stripTrailingNewline "a\rb".data ∧
    joinNL (chunk_text_by_lines "a\rb".data 8000) ≠ "a\rb".data := by decide

/-- C1 (amended): for every input text whose line-break characters are all
`'\n'` and every limit, joining the chunks of `chunk_text_by_lines` with a
newline reproduces the input up to removal of one terminating `'\n'`. -/
theorem chunk_join_roundtrip_lf (text : List Char) (char_limit : Nat)
    (h : ∀ c ∈ text, isLineBreak c = true → c = '\n') :
    joinNL (chunk_text_by_lines text char_limit) = stripTrailingNewline text := by
  rw [joinNL_chunk_eq_joinNL_splitlines]
  simp only [str_splitlines]
  rw [joinNL_splitlinesAux_only_lf text [] h]
  cases text with
  | nil => simp [stripTrailingNewline]
  | cons c rest => simp

/-- Witness for `chunk_join_roundtrip_lf` at the LF-only text `"a\nbb\n"`
with limit 3. -/
theorem chunk_join_roundtrip_lf_witness :
    (∀ c ∈ "a\nbb\n".data, isLineBreak c = true → c = '\n') ∧
    joinNL (chunk_text_by_lines "a\nbb\n".data 3) = stripTrailingNewline "a\nbb\n".data :=
  ⟨by decide, chunk_join_roundtrip_lf "a\nbb\n".data 3 (by decide)⟩

/-- C2: for every text and limit ≥ 1, every chunk of `chunk_text_by_lines`
has length ≤ limit, except a chunk that is exactly one (break-free)
original line whose own length exceeds the limit. -/
theorem chunk_size_bound (text : List Char) (char_limit : Nat) (hl : 1 ≤ char_limit)
    (c : List Char) (hc : c ∈ chunk_text_by_lines text char_limit) :
    c.length ≤ char_limit ∨
      (c ∈ str_splitlines text ∧ char_limit < c.length ∧
        ∀ ch ∈ c, isLineBreak ch = false) := by
  have h := chunkLoop_bound char_limit (str_splitlines text) (str_splitlines text) [] 0
    (by simp [sumExtra]) (Or.inl (by simp)) (by simp) (fun l hmem => hmem) c
    (by simpa [chunk_text_by_lines] using hc)
  rcases h with h | ⟨hmem, hlt⟩
  · exact Or.inl h
  · exact Or.inr ⟨hmem, hlt, splitlinesAux_no_break [] text (by simp) c hmem⟩

/-- Witness for `chunk_size_bound`: with limit 2 the single line `"ccc"`
becomes its own chunk of length 3 > 2. -/
theorem chunk_size_bound_witness :
    (1 ≤ 2 ∧ "ccc".data ∈ chunk_text_by_lines "a\nccc".data 2) ∧
      ("ccc".data.length ≤ 2 ∨
        ("ccc".data ∈ str_splitlines "a\nccc".data ∧ 2 < "ccc".data.length ∧
          ∀ ch ∈ "ccc".data, isLineBreak ch = false)) :=
  ⟨⟨by decide, by decide⟩,
    chunk_size_bound "a\nccc".data 2 (by decide) "ccc".data (by decide)⟩

/-- C4: every chunk of `chunk_text_by_lines`, split back into lines, is a
contiguous run of complete lines of the original input. -/
theorem chunk_lines_contiguous (text : List Char) (char_limit : Nat)
    (c : List Char) (hc : c ∈ chunk_text_by_lines text char_limit) :
    ∃ pre post, pre ++ str_splitlines c ++ post = str_splitlines text := by
  obtain ⟨gs, hne, hflat, heq⟩ := chunkLoop_partition char_limit (str_splitlines text) [] 0
  simp only [chunk_text_by_lines] at hc
  rw [heq] at hc
  obtain ⟨g, hg, rfl⟩ := List.mem_map.mp hc
  obtain ⟨pre, post, hp⟩ := mem_flatten_infix gs g hg
  rw [hflat] at hp
  simp only [List.nil_append] at hp
  have hlines : ∀ l ∈ g, ∀ ch ∈ l, isLineBreak ch = false := by
    intro l hl
    have hmem : l ∈ str_splitlines text := by
      rw [← hp]
      simp [hl]
    exact splitlinesAux_no_break [] text (by simp) l hmem
  obtain ⟨post2, hpost2⟩ := str_splitlines_joinNL g (hne g hg) hlines
  refine ⟨pre, post2 ++ post, ?_⟩
  calc pre ++ str_splitlines (joinNL g) ++ (post2 ++ post)
      = pre ++ (str_splitlines (joinNL g) ++ post2) ++ post := by simp
    _ = pre ++ g ++ post := by rw [hpost2]
    _ = str_splitlines text := hp

/-- Witness for `chunk_lines_contiguous` at the chunk `"bb"` of the text
`"a\nbb\nccc"` with limit 3. -/
theorem chunk_lines_contiguous_witness :
    "bb".data ∈ chunk_text_by_lines "a\nbb\nccc".data 3 ∧
    ∃ pre post, pre ++ str_splitlines "bb".data ++ post = str_splitlines "a\nbb\nccc".data :=
  ⟨by decide, chunk_lines_contiguous "a\nbb\nccc".data 3 "bb".data (by decide)⟩

/-- C7: on the text `"a\nbb\nccc"` with limit 3, `chunk_text_by_lines`
returns exactly `["a", "bb", "ccc"]`. -/
theorem chunk_concrete_example :
    chunk_text_by_lines "a\nbb\nccc".data 3 = ["a".data, "bb".data, "ccc".data] := by decide

/-- C5: the accumulated buffer of `main`'s loop equals the concatenation,
in input order, of the per-chunk PCM byte sequences the backend returned. -/
theorem main_pcm_accumulate_eq_flatten (synth : List Char → List Nat)
    (chunks : List (List Char)) :
    main_pcm_accumulate synth chunks = (chunks.map synth).flatten := by
  suffices h : ∀ init, chunks.foldl (fun acc chunk => acc ++ synth chunk) init =
      init ++ (chunks.map synth).flatten by
    simpa [main_pcm_accumulate] using h []
  induction chunks with
  | nil => simp
  | cons c cs ih =>
    intro init
    simp [ih, List.append_assoc]

theorem inline_audio_eq_nil_of_no_audio (p : Part) (h : part_has_audio p = false) :
    inline_audio p = [] := by
  cases p with
  | mk d =>
    cases d with
    | none => rfl
    | some l =>
      simp [part_has_audio] at h
      simp [inline_audio, h]

/-- C6: the Gemini branch of `tts_chunk` returns the concatenation, in
response order, of the audio payload each part carries (empty for parts
without audio); in particular when no part carries audio it returns the
empty byte sequence rather than failing. -/
theorem tts_chunk_gemini_concat (parts : List Part) :
    tts_chunk_gemini parts = (parts.map inline_audio).flatten ∧
      ((∀ p ∈ parts, part_has_audio p = false) → tts_chunk_gemini parts = []) := by
  constructor
  · induction parts with
    | nil => rfl
    | cons p ps ih =>
      by_cases h : part_has_audio p
      · simp [tts_chunk_gemini, List.filter_cons, h] at ih ⊢
        rw [ih]
      · simp [tts_chunk_gemini, List.filter_cons, h] at ih ⊢
        rw [ih, inline_audio_eq_nil_of_no_audio p (by simpa using h)]
        simp
  · intro h
    have : parts.filter part_has_audio = [] := by
      rw [List.filter_eq_nil_iff]
      intro p hp
      simp [h p hp]
    simp [tts_chunk_gemini, this]

/-- Witness for `tts_chunk_gemini_concat`: two audio-free parts (a missing
payload and an empty payload) produce the empty byte sequence. -/
theorem tts_chunk_gemini_concat_witness :
    tts_chunk_gemini [Part.mk none, Part.mk (some [])] = [] :=
  (tts_chunk_gemini_concat [Part.mk none, Part.mk (some [])]).2 (by decide)

/-- C9: a client value that is neither a `genai.Client` nor an
`openai.OpenAI` instance falls through both `isinstance` branches of
`tts_chunk`, which therefore returns Python's implicit `None` instead of
bytes, without raising. -/
theorem tts_chunk_other_returns_none (chunk : List Char) :
    tts_chunk Client.other chunk = none := rfl

/-- C3 (as stated, counterexample): with MP3 requested, pydub unavailable
and the one-line text `"hi"`, the first event of the run is a TTS network
call; the configuration error is raised only afterwards, at the save
step.  So the error does not precede every network call. -/
theorem mp3_config_error_counterexample :
    (main_trace false "mp3" (fun _ => []) "hi".data 8000).head? =
        some (Event.ttsCall "hi".data) ∧
      Event.save (SaveResult.configError "pydub is required for MP3 output") ∈
        (main_trace false "mp3" (fun _ => []) "hi".data 8000).tail := by decide

/-- C3 (amended): when MP3 output is requested and pydub is unavailable,
the run ends with the configuration error at the save step — after the
TTS network calls for all chunks, not before them — and no audio file of
any format is written on that path (in particular there is no silent
fallback to wav). -/
theorem mp3_config_error_after_calls (synth : List Char → List Nat)
    (text : List Char) (char_limit : Nat) :
    (main_trace false "mp3" synth text char_limit).getLast? =
        some (Event.save (SaveResult.configError "pydub is required for MP3 output")) ∧
      (∀ e ∈ (main_trace false "mp3" synth text char_limit).dropLast,
        ∃ c, e = Event.ttsCall c ∧ c ∈ chunk_text_by_lines text char_limit) ∧
      (∀ ext pcm, Event.save (SaveResult.wrote ext pcm) ∉
        main_trace false "mp3" synth text char_limit) := by
  refine ⟨?_, ?_, ?_⟩
  · simp [main_trace, save_audio_file]
  · intro e he
    rw [main_trace, List.dropLast_concat] at he
    obtain ⟨c, hc, rfl⟩ := List.mem_map.mp he
    exact ⟨c, rfl, hc⟩
  · intro ext pcm hmem
    simp [main_trace, save_audio_file] at hmem

theorem fs_read_write (fs : FS) (p : PyPath) (t : List Char) :
    fs_read (fs_write fs p t) p = some t := by
  simp [fs_read, fs_write]

/-- C8: if the derived or explicit text file exists,
`extract_text_from_pdf` returns its contents verbatim with no network
call and no filesystem change; consequently a second call with the same
paths, after a first call that persisted the extraction, returns text
identical to the first call's result with no network call. -/
theorem extract_text_from_pdf_cache (fs : FS) (extract_llm : List Nat → List Char)
    (pdf_bytes : List Nat) (output_audio_file : PyPath) (txt_path : Option PyPath) :
    (∀ t, fs_read fs (txt_path.getD (default_txt_path output_audio_file)) = some t →
      extract_text_from_pdf fs extract_llm pdf_bytes output_audio_file txt_path =
        ⟨t, fs, false⟩) ∧
    (fs_read fs (txt_path.getD (default_txt_path output_audio_file)) = none →
      (extract_text_from_pdf
          (extract_text_from_pdf fs extract_llm pdf_bytes output_audio_file txt_path).fs
          extract_llm pdf_bytes output_audio_file txt_path).text =
        (extract_text_from_pdf fs extract_llm pdf_bytes output_audio_file txt_path).text ∧
      (extract_text_from_pdf
          (extract_text_from_pdf fs extract_llm pdf_bytes output_audio_file txt_path).fs
          extract_llm pdf_bytes output_audio_file txt_path).network_call = false ∧
      (extract_text_from_pdf fs extract_llm pdf_bytes output_audio_file
          txt_path).network_call = true) := by
  constructor
  · intro t ht
    simp [extract_text_from_pdf, ht]
  · intro hnone
    simp [extract_text_from_pdf, hnone, fs_read_write]

/-- Witness for `extract_text_from_pdf_cache`: on an empty filesystem the
first call issues the network call and persists, the second returns the
same text from cache. -/
theorem extract_text_from_pdf_cache_witness :
    (extract_text_from_pdf
        (extract_text_from_pdf [] (fun _ => "T".data) [7] ⟨"paper", ".wav"⟩ none).fs
        (fun _ => "T".data) [7] ⟨"paper", ".wav"⟩ none).text =
      (extract_text_from_pdf [] (fun _ => "T".data) [7] ⟨"paper", ".wav"⟩ none).text ∧
    (extract_text_from_pdf
        (extract_text_from_pdf [] (fun _ => "T".data) [7] ⟨"paper", ".wav"⟩ none).fs
        (fun _ => "T".data) [7] ⟨"paper", ".wav"⟩ none).network_call = false ∧
    (extract_text_from_pdf [] (fun _ => "T".data) [7] ⟨"paper", ".wav"⟩
        none).network_call = true :=
  (extract_text_from_pdf_cache [] (fun _ => "T".data) [7] ⟨"paper", ".wav"⟩ none).2 rfl

theorem normalizeNewlines_nil : normalizeNewlines [] = [] := rfl

theorem normalizeNewlines_not_break (c : Char) (rest : List Char)
    (h : isLineBreak c = false) :
    normalizeNewlines (c :: rest) = c :: normalizeNewlines rest := by
  cases rest <;> simp [normalizeNewlines, h]

theorem normalizeNewlines_break (c : Char) (rest : List Char)
    (h : isLineBreak c = true) (h2 : ¬(c = '\r' ∧ rest.head? = some '\n')) :
    normalizeNewlines (c :: rest) = '\n' :: normalizeNewlines rest := by
  cases rest with
  | nil => simp [normalizeNewlines, h]
  | cons d rest2 =>
    have h3 : ¬(c = '\r' ∧ d = '\n') := by simpa using h2
    simp [normalizeNewlines, h, h3]

theorem normalizeNewlines_crlf (rest : List Char) :
    normalizeNewlines ('\r' :: '\n' :: rest) = '\n' :: normalizeNewlines rest := rfl

theorem normalizeNewlines_only_lf (t : List Char) :
    ∀ c ∈ normalizeNewlines t, isLineBreak c = true → c = '\n' := by
  induction t using normalizeNewlines.induct with
  | case1 => simp [normalizeNewlines_nil]
  | case2 c hb =>
    intro x hx
    rw [normalizeNewlines_break c [] hb (by simp), normalizeNewlines_nil] at hx
    rcases List.mem_singleton.mp hx with rfl
    intro _
    rfl
  | case3 c hb d rest2 hcr ih =>
    obtain ⟨rfl, rfl⟩ := hcr
    intro x hx
    rw [normalizeNewlines_crlf] at hx
    rcases List.mem_cons.mp hx with rfl | hx
    · intro _; rfl
    · exact ih x hx
  | case4 c hb d rest2 hcr ih =>
    intro x hx
    rw [normalizeNewlines_break c (d :: rest2) hb (by simpa using hcr)] at hx
    rcases List.mem_cons.mp hx with rfl | hx
    · intro _; rfl
    · exact ih x hx
  | case5 c rest hb ih =>
    intro x hx
    rw [normalizeNewlines_not_break c rest (by simpa using hb)] at hx
    rcases List.mem_cons.mp hx with rfl | hx
    · intro hx2
      exact absurd hx2 (by simpa using hb)
    · exact ih x hx

theorem splitlinesAux_normalize (t : List Char) :
    ∀ acc, splitlinesAux acc (normalizeNewlines t) = splitlinesAux acc t := by
  induction t using normalizeNewlines.induct with
  | case1 => intro acc; rfl
  | case2 c hb =>
    intro acc
    rw [normalizeNewlines_break c [] hb (by simp), normalizeNewlines_nil,
      splitlinesAux_break acc '\n' [] (by decide) (by simp),
      splitlinesAux_break acc c [] hb (by simp)]
  | case3 c hb d rest2 hcr ih =>
    obtain ⟨rfl, rfl⟩ := hcr
    intro acc
    rw [normalizeNewlines_crlf, splitlinesAux_break acc '\n' _ (by decide) (by simp),
      ih [], splitlinesAux_crlf]
  | case4 c hb d rest2 hcr ih =>
    intro acc
    rw [normalizeNewlines_break c (d :: rest2) hb (by simpa using hcr),
      splitlinesAux_break acc '\n' _ (by decide) (by simp), ih [],
      splitlinesAux_break acc c _ hb (by simpa using hcr)]
  | case5 c rest hb ih =>
    intro acc
    rw [normalizeNewlines_not_break c rest (by simpa using hb),
      splitlinesAux_not_break acc c _ (by simpa using hb),
      splitlinesAux_not_break acc c _ (by simpa using hb), ih (c :: acc)]

/-- C10: `chunk_text_by_lines` splits its input at every universal line
boundary recognised by Python's `str.splitlines` (among them `"\r\n"` as
one boundary, `'\r'`, `'\x0b'`, `'\x0c'`, `'\x85'`, `'\u2028'`,
`'\u2029'`) and rejoins with `'\n'` only: the rejoined chunks always equal
the input with every line boundary replaced by `'\n'` and one terminating
line break dropped. -/
theorem chunk_universal_newlines :
    (isLineBreak '\r' = true ∧ isLineBreak '\u000B' = true ∧ isLineBreak '\u000C' = true ∧
      isLineBreak '\u0085' = true ∧ isLineBreak '\u2028' = true ∧
      isLineBreak '\u2029' = true ∧ normalizeNewlines "\r\n".data = "\n".data) ∧
    ∀ (text : List Char) (char_limit : Nat),
      joinNL (chunk_text_by_lines text char_limit) =
        stripTrailingNewline (normalizeNewlines text) := by
  refine ⟨by decide, ?_⟩
  intro text char_limit
  rw [joinNL_chunk_eq_joinNL_splitlines]
  simp only [str_splitlines]
  rw [← splitlinesAux_normalize text [],
    joinNL_splitlinesAux_only_lf (normalizeNewlines text) [] (normalizeNewlines_only_lf text)]
  cases hnt : normalizeNewlines text with
  | nil => simp [stripTrailingNewline]
  | cons c rest => simp

end PaperToAudio
